import Mathlib

/-! Verification development for the HLL benchmark analysis scripts
(`union_plot.py`, `plot_results.py`).

The aggregation-and-comparison pipeline of `union_plot.py` is embedded as
pure functions over lists of trial records.  Measurements are modelled as
exact rationals; results of pandas column divisions, which can be IEEE
infinities or NaN when a denominator is zero, are modelled by the type
`PFloat` below.  Standard deviations appear in the pipeline only through
their definedness and comparisons against zero, so the embedding carries the
sample variance (the square of pandas' `std`), which determines both.
-/

/-- Result of a pandas float computation: an exact finite rational, one of
the two infinities, or NaN.  Rounding of finite values is not modelled; the
claims under study depend only on zero-denominator behaviour, which IEEE
arithmetic fixes exactly. -/
inductive PFloat where
  | nan : PFloat
  | inf : PFloat
  | ninf : PFloat
  | fin (q : ℚ) : PFloat
deriving DecidableEq

/-- IEEE-style division of two finite values (numerator `a`, denominator
`b`): `a / 0` is `NaN` when `a = 0`, `+inf` when `a > 0`, `-inf` when
`a < 0`; otherwise the exact quotient. -/
def pdiv (a b : ℚ) : PFloat :=
  if b = 0 then
    if a = 0 then PFloat.nan
    else if 0 < a then PFloat.inf
    else PFloat.ninf
  else PFloat.fin (a / b)

/-- Multiplication of a pandas value by a finite rational constant,
IEEE-style (`inf * 0 = NaN`). -/
def pfMulQ : PFloat → ℚ → PFloat
  | PFloat.nan, _ => PFloat.nan
  | PFloat.inf, c => if 0 < c then PFloat.inf else if c < 0 then PFloat.ninf else PFloat.nan
  | PFloat.ninf, c => if 0 < c then PFloat.ninf else if c < 0 then PFloat.inf else PFloat.nan
  | PFloat.fin q, c => PFloat.fin (q * c)

/-- IEEE-style division of two pandas values. Signed zeros are not
distinguished (inputs in this pipeline are non-negative). -/
def pfDiv : PFloat → PFloat → PFloat
  | PFloat.nan, _ => PFloat.nan
  | _, PFloat.nan => PFloat.nan
  | PFloat.inf, PFloat.inf => PFloat.nan
  | PFloat.inf, PFloat.ninf => PFloat.nan
  | PFloat.ninf, PFloat.inf => PFloat.nan
  | PFloat.ninf, PFloat.ninf => PFloat.nan
  | PFloat.inf, PFloat.fin q => if q < 0 then PFloat.ninf else PFloat.inf
  | PFloat.ninf, PFloat.fin q => if q < 0 then PFloat.inf else PFloat.ninf
  | PFloat.fin _, PFloat.inf => PFloat.fin 0
  | PFloat.fin _, PFloat.ninf => PFloat.fin 0
  | PFloat.fin a, PFloat.fin b => pdiv a b

/-- NaN test on a pandas value. -/
def PFloat.isNan : PFloat → Bool
  | PFloat.nan => true
  | _ => false

/-- IEEE comparison `x < y`: false whenever either side is NaN. -/
def pfLtB : PFloat → PFloat → Bool
  | PFloat.nan, _ => false
  | _, PFloat.nan => false
  | PFloat.ninf, PFloat.ninf => false
  | PFloat.ninf, _ => true
  | _, PFloat.ninf => false
  | PFloat.inf, _ => false
  | PFloat.fin _, PFloat.inf => true
  | PFloat.fin a, PFloat.fin b => decide (a < b)

/-- Arithmetic mean, as computed by the pandas `mean` aggregation
(groups are always non-empty, so the `0 / 0 = 0` convention of `ℚ` is never
exercised). -/
def qMean (xs : List ℚ) : ℚ := xs.sum / (xs.length : ℚ)

/-- Square of the pandas `std` aggregation (sample standard deviation,
`ddof = 1`): `none` models the NaN that pandas returns for groups with
fewer than two members; otherwise the sample variance
`Σ (x - mean)² / (n - 1)`.  The square determines exactly the properties
used here: definedness, and comparison of the std against zero. -/
def sampleStdSq (xs : List ℚ) : Option ℚ :=
  if xs.length < 2 then none
  else some (((xs.map (fun x => (x - qMean xs) ^ 2)).sum) / ((xs.length : ℚ) - 1))

/-- Maximum of a list, as computed by the pandas `max` aggregation
(groups are always non-empty; `0` for the empty list is never exercised). -/
def listMax : List ℚ → ℚ
  | [] => 0
  | x :: xs => xs.foldl max x

/-- Lexicographic order on `(precision, num_days)` keys, the order pandas
`groupby(['precision', 'num_days'])` sorts group keys in. -/
def keyLe (a b : ℤ × ℤ) : Prop := a.1 < b.1 ∨ (a.1 = b.1 ∧ a.2 ≤ b.2)

/-- Strict lexicographic order on `(precision, num_days)` keys. -/
def keyLt (a b : ℤ × ℤ) : Prop := a.1 < b.1 ∨ (a.1 = b.1 ∧ a.2 < b.2)

instance : DecidableRel keyLe := fun a b => by
  unfold keyLe; infer_instance

instance : DecidableRel keyLt := fun a b => by
  unfold keyLt; infer_instance

instance : IsTotal (ℤ × ℤ) keyLe := by
  constructor; intro a b; unfold keyLe; omega

instance : IsTrans (ℤ × ℤ) keyLe := by
  constructor; intro a b c; unfold keyLe; omega

/-- One row of `union_detailed.csv`: a single approximate-method trial. -/
structure UnionTrial where
  precision : ℤ
  num_days : ℤ
  estimated_count : ℚ
  query_time_ms : ℚ
  total_sketch_size_bytes : ℚ
deriving DecidableEq

/-- One row of `exact_detailed.csv`: a single exact-method trial. -/
structure ExactTrial where
  num_days : ℤ
  exact_count : ℚ
  query_time_ms : ℚ
deriving DecidableEq

/-- One row of `union_stats` (the approximate side after aggregation). -/
structure UnionStatsRow where
  precision : ℤ
  num_days : ℤ
  avg_estimate : ℚ
  union_time_ms : ℚ
  union_stddev_ms_sq : Option ℚ
  total_sketch_bytes : ℚ
deriving DecidableEq

/-- One row of `exact_stats` (the exact side after aggregation). -/
structure ExactStatsRow where
  num_days : ℤ
  exact_count : ℚ
  exact_time_ms : ℚ
  exact_stddev_ms_sq : Option ℚ
deriving DecidableEq

/-- Grouping key of an approximate trial. -/
def ukey (t : UnionTrial) : ℤ × ℤ := (t.precision, t.num_days)

/-- Distinct `(precision, num_days)` keys of the approximate trials, sorted
ascending, as pandas `groupby(['precision', 'num_days'])` (with its default
`sort=True`) enumerates groups. -/
def unionKeys (ts : List UnionTrial) : List (ℤ × ℤ) :=
  List.insertionSort keyLe ((ts.map ukey).dedup)

/-- The trials belonging to one `(precision, num_days)` group. -/
def unionGroup (ts : List UnionTrial) (k : ℤ × ℤ) : List UnionTrial :=
  ts.filter (fun t => ukey t = k)

/-- The aggregated row for one approximate group, mirroring
`union_df.groupby(['precision','num_days']).agg(avg_estimate=('estimated_count','mean'),
union_time_ms=('query_time_ms','mean'), union_stddev_ms=('query_time_ms','std'),
total_sketch_bytes=('total_sketch_size_bytes','max'))`. -/
def mkUnionRow (ts : List UnionTrial) (k : ℤ × ℤ) : UnionStatsRow :=
  { precision := k.1
    num_days := k.2
    avg_estimate := qMean ((unionGroup ts k).map (·.estimated_count))
    union_time_ms := qMean ((unionGroup ts k).map (·.query_time_ms))
    union_stddev_ms_sq := sampleStdSq ((unionGroup ts k).map (·.query_time_ms))
    total_sketch_bytes := listMax ((unionGroup ts k).map (·.total_sketch_size_bytes)) }

/-- The aggregated approximate table `union_stats`. -/
def unionStats (ts : List UnionTrial) : List UnionStatsRow :=
  (unionKeys ts).map (mkUnionRow ts)

/-- Distinct `num_days` keys of the exact trials, sorted ascending. -/
def exactKeys (es : List ExactTrial) : List ℤ :=
  List.insertionSort (fun a b : ℤ => a ≤ b) ((es.map (·.num_days)).dedup)

/-- The trials belonging to one `num_days` group on the exact side. -/
def exactGroup (es : List ExactTrial) (d : ℤ) : List ExactTrial :=
  es.filter (fun e => e.num_days = d)

/-- The aggregated row for one exact group, mirroring
`exact_df.groupby('num_days').agg(exact_count=('exact_count','mean'),
exact_time_ms=('query_time_ms','mean'), exact_stddev_ms=('query_time_ms','std'))`. -/
def mkExactRow (es : List ExactTrial) (d : ℤ) : ExactStatsRow :=
  { num_days := d
    exact_count := qMean ((exactGroup es d).map (·.exact_count))
    exact_time_ms := qMean ((exactGroup es d).map (·.query_time_ms))
    exact_stddev_ms_sq := sampleStdSq ((exactGroup es d).map (·.query_time_ms)) }

/-- The aggregated exact table `exact_stats`. -/
def exactStats (es : List ExactTrial) : List ExactStatsRow :=
  (exactKeys es).map (mkExactRow es)

/-- One row of `comparison_df` after the merge and the derived-metric
columns. -/
structure CompRow where
  precision : ℤ
  num_days : ℤ
  avg_estimate : ℚ
  union_time_ms : ℚ
  union_stddev_ms_sq : Option ℚ
  total_sketch_bytes : ℚ
  exact_count : ℚ
  exact_time_ms : ℚ
  exact_stddev_ms_sq : Option ℚ
  error_absolute : ℚ
  error_pct : PFloat
  speedup_factor : PFloat
  sketch_size_kb : ℚ
  efficiency_score : PFloat
deriving DecidableEq

/-- The joined row for one matched pair, with the derived metrics of
`union_plot.py` lines 58–64: `error_absolute = abs(avg_estimate - exact_count)`,
`error_pct = error_absolute / exact_count * 100`,
`speedup_factor = exact_time_ms / union_time_ms`,
`sketch_size_kb = total_sketch_bytes / 1024`,
`efficiency_score = speedup_factor / error_pct`. -/
def mkCompRow (u : UnionStatsRow) (e : ExactStatsRow) : CompRow :=
  { precision := u.precision
    num_days := u.num_days
    avg_estimate := u.avg_estimate
    union_time_ms := u.union_time_ms
    union_stddev_ms_sq := u.union_stddev_ms_sq
    total_sketch_bytes := u.total_sketch_bytes
    exact_count := e.exact_count
    exact_time_ms := e.exact_time_ms
    exact_stddev_ms_sq := e.exact_stddev_ms_sq
    error_absolute := |u.avg_estimate - e.exact_count|
    error_pct := pfMulQ (pdiv (|u.avg_estimate - e.exact_count|) e.exact_count) 100
    speedup_factor := pdiv e.exact_time_ms u.union_time_ms
    sketch_size_kb := u.total_sketch_bytes / 1024
    efficiency_score :=
      pfDiv (pdiv e.exact_time_ms u.union_time_ms)
        (pfMulQ (pdiv (|u.avg_estimate - e.exact_count|) e.exact_count) 100) }

/-- `comparison_df = union_stats.merge(exact_stats, on='num_days')`: an inner
join on `num_days` alone, preserving the order of the left (approximate)
rows.  The exact table's keys are unique, so each left row matches at most
the one exact row `find?` locates. -/
def comparisonDf (us : List UnionTrial) (es : List ExactTrial) : List CompRow :=
  (unionStats us).filterMap fun u =>
    ((exactStats es).find? (fun e => e.num_days == u.num_days)).map (mkCompRow u)

set_option maxRecDepth 100000

/-- The group keys of the aggregated approximate table are exactly
`unionKeys`. -/
theorem unionStats_map_key (ts : List UnionTrial) :
    (unionStats ts).map (fun r => (r.precision, r.num_days)) = unionKeys ts := by
  unfold unionStats
  rw [List.map_map]
  exact List.map_id'' (fun k => rfl) _

/-- The group keys of the aggregated exact table are exactly `exactKeys`. -/
theorem exactStats_map_key (es : List ExactTrial) :
    (exactStats es).map (fun r => r.num_days) = exactKeys es := by
  unfold exactStats
  rw [List.map_map]
  exact List.map_id'' (fun k => rfl) _

theorem unionKeys_nodup (ts : List UnionTrial) : (unionKeys ts).Nodup :=
  ((List.perm_insertionSort keyLe _).nodup_iff).mpr ((ts.map ukey).nodup_dedup)

theorem unionKeys_sorted (ts : List UnionTrial) : List.Pairwise keyLe (unionKeys ts) :=
  List.sorted_insertionSort keyLe _

theorem keyLt_iff (a b : ℤ × ℤ) : keyLt a b ↔ keyLe a b ∧ a ≠ b := by
  unfold keyLe keyLt
  constructor
  · intro h
    refine ⟨by omega, fun hab => by subst hab; omega⟩
  · rintro ⟨h, hne⟩
    have : a.1 ≠ b.1 ∨ a.2 ≠ b.2 := by
      by_contra hc
      push_neg at hc
      exact hne (Prod.ext hc.1 hc.2)
    omega

theorem unionKeys_pairwise_lt (ts : List UnionTrial) :
    List.Pairwise keyLt (unionKeys ts) := by
  have h := (unionKeys_sorted ts).and (unionKeys_nodup ts)
  exact h.imp fun hab => (keyLt_iff _ _).mpr hab

theorem mem_unionKeys (ts : List UnionTrial) (k : ℤ × ℤ) :
    k ∈ unionKeys ts ↔ k ∈ ts.map ukey := by
  simp [unionKeys]

theorem exactKeys_nodup (es : List ExactTrial) : (exactKeys es).Nodup :=
  ((List.perm_insertionSort _ _).nodup_iff).mpr ((es.map (·.num_days)).nodup_dedup)

theorem exactKeys_sorted (es : List ExactTrial) :
    List.Pairwise (fun a b : ℤ => a ≤ b) (exactKeys es) :=
  List.sorted_insertionSort _ _

theorem exactKeys_pairwise_lt (es : List ExactTrial) :
    List.Pairwise (fun a b : ℤ => a < b) (exactKeys es) := by
  have h := (exactKeys_sorted es).and (exactKeys_nodup es)
  exact h.imp fun hab => lt_of_le_of_ne hab.1 hab.2

theorem mem_exactKeys (es : List ExactTrial) (d : ℤ) :
    d ∈ exactKeys es ↔ d ∈ es.map (·.num_days) := by
  simp [exactKeys]

/-- Every row of the aggregated approximate table is the aggregate of its own
group, and its key is a key of the raw trials. -/
theorem unionStats_row (ts : List UnionTrial) (r : UnionStatsRow)
    (hr : r ∈ unionStats ts) :
    r = mkUnionRow ts (r.precision, r.num_days) ∧ (r.precision, r.num_days) ∈ unionKeys ts := by
  rcases List.mem_map.mp hr with ⟨k, hk, hrk⟩
  have hkey : (r.precision, r.num_days) = k := by
    subst hrk; rfl
  rw [hkey]
  exact ⟨hrk.symm, hk⟩

/-- Every row of the aggregated exact table is the aggregate of its own
group, and its key is a key of the raw trials. -/
theorem exactStats_row (es : List ExactTrial) (e : ExactStatsRow)
    (he : e ∈ exactStats es) :
    e = mkExactRow es e.num_days ∧ e.num_days ∈ exactKeys es := by
  rcases List.mem_map.mp he with ⟨d, hd, hed⟩
  have hkey : e.num_days = d := by
    subst hed; rfl
  rw [hkey]
  exact ⟨hed.symm, hd⟩

/-- Membership in the joined table: a row comes from an approximate row and
the exact row `find?` locates for its window. -/
theorem mem_comparisonDf (us : List UnionTrial) (es : List ExactTrial) (r : CompRow) :
    r ∈ comparisonDf us es ↔
      ∃ u ∈ unionStats us, ∃ e,
        (exactStats es).find? (fun e' => e'.num_days == u.num_days) = some e ∧
        r = mkCompRow u e := by
  unfold comparisonDf
  rw [List.mem_filterMap]
  constructor
  · rintro ⟨u, hu, hmap⟩
    rcases Option.map_eq_some'.mp hmap with ⟨e, hfind, hre⟩
    exact ⟨u, hu, e, hfind, hre.symm⟩
  · rintro ⟨u, hu, e, hfind, hre⟩
    exact ⟨u, hu, by rw [hfind, hre]; rfl⟩

/-- Mapping after a `filterMap` whose results agree with `h` on the kept
elements yields a sublist of mapping `h` directly. -/
theorem filterMap_map_sublist {α β γ : Type _} (f : α → Option β) (g : β → γ) (h : α → γ)
    (l : List α) (hfg : ∀ a b, f a = some b → g b = h a) :
    ((l.filterMap f).map g).Sublist (l.map h) := by
  induction l with
  | nil => simp
  | cons a l ih =>
    cases hfa : f a with
    | none => simpa [hfa] using (ih).trans (List.sublist_cons_self _ _)
    | some b =>
      have hgb := hfg a b hfa
      simp only [List.filterMap_cons, hfa, List.map_cons, hgb]
      exact List.Sublist.cons₂ _ ih

/-- The joined table's `(precision, num_days)` keys are strictly ascending:
in particular there is at most one row per pair. -/
theorem comparisonDf_keys_pairwise (us : List UnionTrial) (es : List ExactTrial) :
    List.Pairwise keyLt ((comparisonDf us es).map (fun r => (r.precision, r.num_days))) := by
  have hsub :
      ((comparisonDf us es).map (fun r => (r.precision, r.num_days))).Sublist
        ((unionStats us).map (fun u => (u.precision, u.num_days))) := by
    refine filterMap_map_sublist _ _ _ _ ?_
    intro u r hur
    rcases Option.map_eq_some'.mp hur with ⟨e, _, hre⟩
    rw [← hre]
    rfl
  have hpair : List.Pairwise keyLt ((unionStats us).map (fun u => (u.precision, u.num_days))) := by
    rw [unionStats_map_key]
    exact unionKeys_pairwise_lt us
  exact hpair.sublist hsub

/-- Index of the best element of a pandas column, mirroring `Series.idxmax`
(`worse := pfLtB`) and `Series.idxmin` (`worse` flipped): NaN entries are
skipped (pandas' default `skipna=True`), the first occurrence of the
extremum wins, and `none` models the all-NaN/empty failure case. -/
def argBestIdx (worse : PFloat → PFloat → Bool) : List PFloat → Option (ℕ × PFloat)
  | [] => none
  | x :: xs =>
    match argBestIdx worse xs with
    | none => if x.isNan then none else some (0, x)
    | some (j, b) =>
      if x.isNan then some (j + 1, b)
      else if worse x b then some (j + 1, b) else some (0, x)

theorem argBestIdx_none (worse : PFloat → PFloat → Bool) (xs : List PFloat)
    (h : argBestIdx worse xs = none) : ∀ w ∈ xs, w.isNan = true := by
  induction xs with
  | nil => simp
  | cons x xs ih =>
    intro w hw
    simp only [argBestIdx] at h
    rcases hrec : argBestIdx worse xs with _ | ⟨j, b⟩ <;> rw [hrec] at h
    · simp only [] at h
      split at h
      · rcases List.mem_cons.mp hw with rfl | hw
        · assumption
        · exact ih hrec w hw
      · cases h
    · simp only [] at h
      split at h
      · cases h
      · split at h <;> cases h

theorem argBestIdx_isSome (worse : PFloat → PFloat → Bool) (xs : List PFloat)
    (h : ∃ w ∈ xs, w.isNan = false) : (argBestIdx worse xs).isSome := by
  rcases hres : argBestIdx worse xs with _ | p
  · rcases h with ⟨w, hw, hnan⟩
    rw [argBestIdx_none worse xs hres w hw] at hnan
    cases hnan
  · rfl

/-- Correctness of `argBestIdx`: the result points at a non-NaN entry that no
other non-NaN entry beats, and it is the first such entry (when `worse` is
irreflexive, asymmetric, and negatively transitive on non-NaN values). -/
theorem argBestIdx_spec (worse : PFloat → PFloat → Bool)
    (hirr : ∀ a, worse a a = false)
    (hasym : ∀ a b, worse a b = true → worse b a = false)
    (hneg : ∀ a b c, a.isNan = false → b.isNan = false → c.isNan = false →
      worse a b = false → worse b c = false → worse a c = false) :
    ∀ (xs : List PFloat) (i : ℕ) (v : PFloat), argBestIdx worse xs = some (i, v) →
      xs.get? i = some v ∧ v.isNan = false ∧
        ∀ j w, xs.get? j = some w → w.isNan = false →
          worse v w = false ∧ (worse w v = false → i ≤ j)
  | [], i, v, h => by simp [argBestIdx] at h
  | x :: xs, i, v, h => by
    simp only [argBestIdx] at h
    rcases hrec : argBestIdx worse xs with _ | ⟨j', b⟩ <;> rw [hrec] at h <;> simp only [] at h
    · split at h
      · cases h
      · next hx =>
        injection h with h'
        injection h' with h1 h2
        subst h1
        subst h2
        have hxnan : x.isNan = false := by simpa using hx
        refine ⟨rfl, hxnan, ?_⟩
        intro j w hjw hwnan
        match j, hjw with
        | 0, hjw =>
          have hwx : x = w := by simpa using hjw
          subst hwx
          exact ⟨hirr x, fun _ => Nat.le_refl 0⟩
        | (n + 1), hjw =>
          have hwxs : w ∈ xs := List.get?_mem (by simpa using hjw)
          rw [argBestIdx_none worse xs hrec w hwxs] at hwnan
          cases hwnan
    · have ih := argBestIdx_spec worse hirr hasym hneg xs j' b hrec
      split at h
      · next hx =>
        injection h with h'
        injection h' with h1 h2
        subst h1
        subst h2
        refine ⟨by simpa using ih.1, ih.2.1, ?_⟩
        intro j w hjw hwnan
        match j, hjw with
        | 0, hjw =>
          have hwx : x = w := by simpa using hjw
          subst hwx
          rw [hx] at hwnan
          cases hwnan
        | (n + 1), hjw =>
          have hrest := ih.2.2 n w (by simpa using hjw) hwnan
          exact ⟨hrest.1, fun hf => Nat.succ_le_succ (hrest.2 hf)⟩
      · split at h
        · next hx hxb =>
          injection h with h'
          injection h' with h1 h2
          subst h1
          subst h2
          refine ⟨by simpa using ih.1, ih.2.1, ?_⟩
          intro j w hjw hwnan
          match j, hjw with
          | 0, hjw =>
            have hwx : x = w := by simpa using hjw
            subst hwx
            refine ⟨hasym x b hxb, ?_⟩
            intro hf
            rw [hxb] at hf
            cases hf
          | (n + 1), hjw =>
            have hrest := ih.2.2 n w (by simpa using hjw) hwnan
            exact ⟨hrest.1, fun hf => Nat.succ_le_succ (hrest.2 hf)⟩
        · next hx hxb =>
          injection h with h'
          injection h' with h1 h2
          subst h1
          subst h2
          have hxnan : x.isNan = false := by simpa using hx
          have hxbf : worse x b = false := by simpa using hxb
          refine ⟨rfl, hxnan, ?_⟩
          intro j w hjw hwnan
          match j, hjw with
          | 0, hjw =>
            have hwx : x = w := by simpa using hjw
            subst hwx
            exact ⟨hirr x, fun _ => Nat.zero_le 0⟩
          | (n + 1), hjw =>
            have hrest := ih.2.2 n w (by simpa using hjw) hwnan
            exact ⟨hneg x b w hxnan ih.2.1 hwnan hxbf hrest.1, fun _ => Nat.zero_le (n + 1)⟩

theorem pfLtB_irrefl (a : PFloat) : pfLtB a a = false := by
  cases a <;> simp [pfLtB]

theorem pfLtB_asymm (a b : PFloat) (h : pfLtB a b = true) : pfLtB b a = false := by
  cases a <;> cases b <;> simp_all [pfLtB] <;> linarith

theorem pfLtB_negtrans (a b c : PFloat) (_ : a.isNan = false) (_ : b.isNan = false)
    (_ : c.isNan = false) (hab : pfLtB a b = false) (hbc : pfLtB b c = false) :
    pfLtB a c = false := by
  cases a <;> cases b <;> cases c <;> simp_all [pfLtB, PFloat.isNan] <;> linarith

/-- `comparison_df.loc[comparison_df['speedup_factor'].idxmax()]`. -/
def bestSpeedRow (df : List CompRow) : Option CompRow :=
  (argBestIdx pfLtB (df.map (·.speedup_factor))).bind fun p => df.get? p.1

/-- `comparison_df.loc[comparison_df['error_pct'].idxmin()]`. -/
def bestAccuracyRow (df : List CompRow) : Option CompRow :=
  (argBestIdx (fun x b => pfLtB b x) (df.map (·.error_pct))).bind fun p => df.get? p.1

/-- `comparison_df.loc[comparison_df['efficiency_score'].idxmax()]`. -/
def bestEfficiencyRow (df : List CompRow) : Option CompRow :=
  (argBestIdx pfLtB (df.map (·.efficiency_score))).bind fun p => df.get? p.1

/-- In a list whose keys are strictly ascending, earlier positions have
lexicographically smaller-or-equal keys. -/
theorem pairwise_keyLe_of_get (l : List (ℤ × ℤ)) (h : List.Pairwise keyLt l)
    (i j : ℕ) (hij : i ≤ j) (a b : ℤ × ℤ) (ha : l.get? i = some a) (hb : l.get? j = some b) :
    keyLe a b := by
  rcases Nat.lt_or_ge i j with hlt | hge
  · have hi : i < l.length := (List.get?_eq_some.mp ha).1
    have hj : j < l.length := (List.get?_eq_some.mp hb).1
    have := List.pairwise_iff_get.mp h ⟨i, hi⟩ ⟨j, hj⟩ hlt
    rw [(List.get?_eq_some.mp ha).2, (List.get?_eq_some.mp hb).2] at this
    unfold keyLt at this
    unfold keyLe
    omega
  · have hji : i = j := Nat.le_antisymm hij hge
    subst hji
    rw [ha] at hb
    injection hb with hab
    subst hab
    unfold keyLe
    omega

/-- Generic correctness of a "best row by metric" lookup on a table with
strictly ascending keys: the returned row exists, attains the optimum of the
metric among all rows (for `worse` an irreflexive, asymmetric, negatively
transitive comparison), and breaks ties towards the smallest
`(precision, num_days)` key. -/
theorem bestRow_spec (worse : PFloat → PFloat → Bool)
    (hirr : ∀ a, worse a a = false)
    (hasym : ∀ a b, worse a b = true → worse b a = false)
    (hneg : ∀ a b c, a.isNan = false → b.isNan = false → c.isNan = false →
      worse a b = false → worse b c = false → worse a c = false)
    (df : List CompRow) (f : CompRow → PFloat)
    (hsorted : List.Pairwise keyLt (df.map (fun r => (r.precision, r.num_days))))
    (hfin : ∀ r ∈ df, (f r).isNan = false) (hne : df ≠ []) :
    ∃ b, (argBestIdx worse (df.map f)).bind (fun p => df.get? p.1) = some b ∧
      b ∈ df ∧
      (∀ r ∈ df, worse (f b) (f r) = false) ∧
      (∀ r ∈ df, f r = f b → keyLe (b.precision, b.num_days) (r.precision, r.num_days)) := by
  have hex : ∃ w ∈ df.map f, w.isNan = false := by
    rcases List.exists_mem_of_ne_nil df hne with ⟨r, hr⟩
    exact ⟨f r, List.mem_map_of_mem f hr, hfin r hr⟩
  rcases hsome : argBestIdx worse (df.map f) with _ | ⟨i, v⟩
  · have := argBestIdx_isSome worse (df.map f) hex
    rw [hsome] at this
    cases this
  · have hspec := argBestIdx_spec worse hirr hasym hneg (df.map f) i v hsome
    rcases hspec with ⟨hget, hvnan, hopt⟩
    rw [List.get?_map] at hget
    rcases hbi : df.get? i with _ | b
    · rw [hbi] at hget
      cases hget
    · rw [hbi] at hget
      have hfb : f b = v := by
        injection hget with h
      subst hfb
      refine ⟨b, hbi, List.get?_mem hbi, ?_, ?_⟩
      · intro r hr
        rcases List.mem_iff_get?.mp hr with ⟨j, hj⟩
        have : (df.map f).get? j = some (f r) := by
          rw [List.get?_map, hj]
          rfl
        exact (hopt j (f r) this (hfin r hr)).1
      · intro r hr hfr
        rcases List.mem_iff_get?.mp hr with ⟨j, hj⟩
        have hjm : (df.map f).get? j = some (f r) := by
          rw [List.get?_map, hj]
          rfl
        have hij : i ≤ j := by
          refine (hopt j (f r) hjm (hfin r hr)).2 ?_
          rw [hfr]
          exact hirr (f b)
        refine pairwise_keyLe_of_get _ hsorted i j hij _ _ ?_ ?_
        · rw [List.get?_map, hbi]
          rfl
        · rw [List.get?_map, hj]
          rfl

/-- One row of `01_results_bulk_exact.csv`. -/
structure BulkExactRow where
  duration_ms : ℚ
deriving DecidableEq

/-- One row of `01_results_bulk_hll.csv`. -/
structure BulkHllRow where
  test_name : String
  duration_ms : ℚ
  relative_error : ℚ
deriving DecidableEq

/-- One row of `02_results_storage.csv`. -/
structure StorageRow where
  item_count : ℤ
  hll_type : String
  storage_bytes : ℚ
deriving DecidableEq

/-- One row of `03_results_hashing.csv`. -/
structure HashingRow where
  test_name : String
  duration_ms : ℚ
deriving DecidableEq

/-- `df.groupby(key)[val].mean()`: one `(key, mean)` pair per distinct key,
keys sorted ascending. -/
def groupMeanBy {α : Type _} [DecidableEq α] (name : α → String) (val : α → ℚ)
    (rows : List α) : List (String × ℚ) :=
  (List.insertionSort (fun a b : String => a ≤ b) ((rows.map name).dedup)).map fun k =>
    (k, qMean ((rows.filter (fun r => name r = k)).map val))

/-- Longest digit run at the head of the character list, with the rest. -/
def takeDigits : List Char → List Char × List Char
  | [] => ([], [])
  | c :: cs =>
    if c.isDigit then
      let p := takeDigits cs
      (c :: p.1, p.2)
    else ([], c :: cs)

/-- Decimal value of a digit run. -/
def digitsToNat (l : List Char) : ℕ :=
  l.foldl (fun acc c => acc * 10 + (c.toNat - 48)) 0

/-- Strips an exact literal from the head of the input, or fails. -/
def dropLit : List Char → List Char → Option (List Char)
  | [], s => some s
  | _ :: _, [] => none
  | p :: ps, c :: cs => if p = c then dropLit ps cs else none

/-- Matches `\d+\.\d+` at the head of the input and returns its numeric
value together with the rest.  The regex's greedy `\d+` needs no
backtracking here because the characters after each run (`.` and the
following literal's first character, which is never a digit) cannot extend a
digit run. -/
def matchNumAt (s : List Char) : Option (ℚ × List Char) :=
  let p1 := takeDigits s
  if p1.1 = [] then none
  else
    match p1.2 with
    | '.' :: r2 =>
      let p2 := takeDigits r2
      if p2.1 = [] then none
      else some ((digitsToNat p1.1 : ℚ) + (digitsToNat p2.1 : ℚ) / (10 : ℚ) ^ p2.1.length, p2.2)
    | _ => none

/-- Matches `\d+\.\d+` followed by the literal `lit2`, returning the number. -/
def matchNumLit (lit2 : List Char) (s : List Char) : Option ℚ :=
  (matchNumAt s).bind fun p => (dropLit lit2 p.2).map fun _ => p.1

/-- `re.search` for a pattern `lit1 (\d+\.\d+) lit2`: tries every start
position left to right and returns the first captured number. -/
def searchNum (lit1 lit2 : List Char) : List Char → Option ℚ
  | [] => (dropLit lit1 []).bind (matchNumLit lit2)
  | c :: cs =>
    match (dropLit lit1 (c :: cs)).bind (matchNumLit lit2) with
    | some q => some q
    | none => searchNum lit1 lit2 cs

/-- The parsed result of a pgbench summary file: the dictionary
`{"tps": ..., "latency": ...}` (exactly these two entries). -/
structure TpsLat where
  tps : ℚ
  latency : ℚ
deriving DecidableEq

/-- Body of `parse_pgbench_summary` applied to the file's content:
`re.search(r"tps = (\d+\.\d+) \(excluding", content)` and
`re.search(r"latency average = (\d+\.\d+) ms", content)`; `None` unless both
match. -/
def parsePgbenchContent (content : String) : Option TpsLat :=
  let t := searchNum "tps = ".toList " (excluding".toList content.toList
  let l := searchNum "latency average = ".toList " ms".toList content.toList
  match t, l with
  | some tv, some lv => some ⟨tv, lv⟩
  | _, _ => none

/-- `parse_pgbench_summary`: `None` when the file is absent, otherwise the
content is parsed; the `try/except` around reading makes every failure
`None` as well. -/
def parse_pgbench_summary (file : Option String) : Option TpsLat :=
  file.bind parsePgbenchContent

/-- The input directory as seen by `plot_results.main`: each expected file
is present (`some` content) or absent (`none`). -/
structure BenchFS where
  bulk_exact : Option (List BulkExactRow)
  bulk_hll : Option (List BulkHllRow)
  storage : Option (List StorageRow)
  hashing : Option (List HashingRow)
  low_card_insert : Option String
  high_card_insert : Option String
  read_cardinality : Option String
  read_union : Option String

/-- Data charted by `plot_bulk_agg`: the per-test mean durations with the
exact-count average prepended, and the per-test mean relative errors. -/
structure BulkAggOut where
  speed : List (String × ℚ)
  error : List (String × ℚ)
deriving DecidableEq

/-- `plot_bulk_agg`: skipped (`none`) when either input is missing. -/
def plot_bulk_agg (dfe : Option (List BulkExactRow)) (dfh : Option (List BulkHllRow)) :
    Option BulkAggOut :=
  match dfe, dfh with
  | some de, some dh =>
    some { speed := ("exact_count", qMean (de.map (·.duration_ms)))
             :: groupMeanBy (·.test_name) (·.duration_ms) dh
           error := groupMeanBy (·.test_name) (·.relative_error) dh }
  | _, _ => none

/-- `plot_storage`: skipped when the input is missing; otherwise the raw
rows are charted directly. -/
def plot_storage (df : Option (List StorageRow)) : Option (List StorageRow) := df

/-- `plot_hashing`: skipped when the input is missing; otherwise charts the
per-test mean durations. -/
def plot_hashing (df : Option (List HashingRow)) : Option (List (String × ℚ)) :=
  df.map (groupMeanBy (·.test_name) (·.duration_ms))

/-- The pgbench entries `main` collects: one per summary file that is
present and parses. -/
def pgbenchEntries (fs : BenchFS) : List (String × TpsLat) :=
  [ ("low_card_insert", fs.low_card_insert)
  , ("high_card_insert", fs.high_card_insert)
  , ("read_cardinality", fs.read_cardinality)
  , ("read_union", fs.read_union) ].filterMap fun p =>
    (parse_pgbench_summary p.2).map fun d => (p.1, d)

/-- Everything `plot_results.main` computes after loading: each plot's data,
`none` where the plot was skipped for missing input. -/
structure PlotResultsOut where
  bulk : Option BulkAggOut
  storage : Option (List StorageRow)
  hashing : Option (List (String × ℚ))
  pgbench : List (String × TpsLat)

/-- The computation of `plot_results.main` on a given input directory. -/
def plotResultsRun (fs : BenchFS) : PlotResultsOut :=
  { bulk := plot_bulk_agg fs.bulk_exact fs.bulk_hll
    storage := plot_storage fs.storage
    hashing := plot_hashing fs.hashing
    pgbench := pgbenchEntries fs }

/-- Data the plots of `union_plot.py` consume: the joined comparison table
and the raw timing columns of the two histograms. -/
structure UnionPlotOut where
  comparison : List CompRow
  union_times : List ℚ
  exact_times : List ℚ
deriving DecidableEq

/-- The module-level load-and-analyse of `union_plot.py`: a missing CSV hits
the `except FileNotFoundError` branch, which calls `exit(1)` — nothing at
all is computed, including the plots that need only the file that is
present. -/
def unionPlotRun : Option (List UnionTrial) → Option (List ExactTrial) →
    Except ℕ UnionPlotOut
  | some us, some es =>
    Except.ok { comparison := comparisonDf us es
                union_times := us.map (·.query_time_ms)
                exact_times := es.map (·.query_time_ms) }
  | _, _ => Except.error 1

/-- Approximate trial of the spec's worked example: precision 10, window 7,
query time 0.5 ms. -/
def uA : UnionTrial :=
  { precision := 10, num_days := 7, estimated_count := 100, query_time_ms := 1/2,
    total_sketch_size_bytes := 1024 }

/-- Approximate trial of the spec's worked example: precision 10, window 7,
query time 0.6 ms. -/
def uB : UnionTrial :=
  { precision := 10, num_days := 7, estimated_count := 100, query_time_ms := 3/5,
    total_sketch_size_bytes := 1024 }

/-- Exact trial of the spec's worked example: window 7, query time 50 ms. -/
def eA : ExactTrial := { num_days := 7, exact_count := 101, query_time_ms := 50 }

/-- Exact trial of the spec's worked example: window 7, query time 52 ms. -/
def eB : ExactTrial := { num_days := 7, exact_count := 101, query_time_ms := 52 }

/-- Exact trial with a zero exact count (degenerate denominator for
`error_pct`). -/
def eZero : ExactTrial := { num_days := 7, exact_count := 0, query_time_ms := 50 }

/-- Exact trial for window 14 only (no approximate counterpart). -/
def e14 : ExactTrial := { num_days := 14, exact_count := 5, query_time_ms := 50 }

/-- Approximate trial with sketch size 100 bytes. -/
def uS1 : UnionTrial :=
  { precision := 10, num_days := 7, estimated_count := 100, query_time_ms := 1,
    total_sketch_size_bytes := 100 }

/-- Approximate trial with sketch size 200 bytes (same group as `uS1`). -/
def uS2 : UnionTrial :=
  { precision := 10, num_days := 7, estimated_count := 100, query_time_ms := 1,
    total_sketch_size_bytes := 200 }

/-- Approximate trial at precision 10, window 30 (tie-break example). -/
def uT1 : UnionTrial :=
  { precision := 10, num_days := 30, estimated_count := 100, query_time_ms := 1,
    total_sketch_size_bytes := 10 }

/-- Approximate trial at precision 12, window 7 (tie-break example). -/
def uT2 : UnionTrial :=
  { precision := 12, num_days := 7, estimated_count := 100, query_time_ms := 1,
    total_sketch_size_bytes := 10 }

/-- Exact trial for window 30 (tie-break example). -/
def eT1 : ExactTrial := { num_days := 30, exact_count := 101, query_time_ms := 10 }

/-- Exact trial for window 7 (tie-break example). -/
def eT2 : ExactTrial := { num_days := 7, exact_count := 101, query_time_ms := 10 }

/-- C8 (counterexample): on an empty trial collection the aggregation
returns an empty aggregated table — it does not fail; there is no
`EmptyInputError` anywhere in the pipeline, whose aggregations are total. -/
theorem claim_C8_cx :
    unionStats ([] : List UnionTrial) = [] ∧ exactStats ([] : List ExactTrial) = [] :=
  ⟨rfl, rfl⟩

/-- C8 (amended): aggregating an empty trial collection yields an empty
aggregated table (pandas `groupby` on an empty frame produces an empty
result), and the downstream join of anything with an empty side is empty;
no error is raised. -/
theorem claim_C8 :
    unionStats ([] : List UnionTrial) = [] ∧ exactStats ([] : List ExactTrial) = [] ∧
    (∀ es : List ExactTrial, comparisonDf [] es = []) ∧
    (∀ us : List UnionTrial, comparisonDf us [] = []) := by
  refine ⟨rfl, rfl, fun es => rfl, fun us => ?_⟩
  unfold comparisonDf
  exact List.filterMap_eq_nil.mpr (fun u _ => rfl)

/-- C2 (amended): for every group containing exactly one trial, the pandas
sample standard deviation (`ddof = 1`) of the timing column is NaN
(modelled as `none`), not 0 — on both the approximate and the exact side. -/
theorem claim_C2 (us : List UnionTrial) (es : List ExactTrial) :
    (∀ r ∈ unionStats us, (unionGroup us (r.precision, r.num_days)).length = 1 →
      r.union_stddev_ms_sq = none) ∧
    (∀ e ∈ exactStats es, (exactGroup es e.num_days).length = 1 →
      e.exact_stddev_ms_sq = none) := by
  constructor
  · intro r hr hlen
    obtain ⟨hreq, -⟩ := unionStats_row us r hr
    conv_lhs => rw [hreq]
    show sampleStdSq ((unionGroup us (r.precision, r.num_days)).map (·.query_time_ms)) = none
    simp [sampleStdSq, List.length_map, hlen]
  · intro e he hlen
    obtain ⟨heeq, -⟩ := exactStats_row es e he
    conv_lhs => rw [heeq]
    show sampleStdSq ((exactGroup es e.num_days).map (·.query_time_ms)) = none
    simp [sampleStdSq, List.length_map, hlen]

/-- C2 (counterexample): for the single-trial group of `uA`, the aggregated
standard deviation is NaN (`none`), not 0 as the claim states. -/
theorem claim_C2_cx :
    (unionStats [uA]).map (·.union_stddev_ms_sq) ≠ [some 0] ∧
    (unionStats [uA]).map (·.union_stddev_ms_sq) = [none] := by
  with_unfolding_all decide

/-- C2 (witness): the amended claim applied to the concrete one-trial
input. -/
theorem claim_C2_witness :
    mkUnionRow [uA] (10, 7) ∈ unionStats [uA] ∧
    (unionGroup [uA]
      ((mkUnionRow [uA] (10, 7)).precision, (mkUnionRow [uA] (10, 7)).num_days)).length = 1 ∧
    (mkUnionRow [uA] (10, 7)).union_stddev_ms_sq = none :=
  ⟨by with_unfolding_all decide, by with_unfolding_all decide,
    (claim_C2 [uA] []).1 (mkUnionRow [uA] (10, 7)) (by with_unfolding_all decide)
      (by with_unfolding_all decide)⟩

theorem foldl_max_mem (l : List ℚ) : ∀ a : ℚ, l.foldl max a ∈ a :: l := by
  induction l with
  | nil => intro a; simp
  | cons x l ih =>
    intro a
    have h := ih (max a x)
    rcases List.mem_cons.mp h with h1 | h1
    · rcases max_choice a x with hc | hc
      · rw [show (x :: l).foldl max a = l.foldl max (max a x) from rfl, h1, hc]
        exact List.mem_cons_self _ _
      · rw [show (x :: l).foldl max a = l.foldl max (max a x) from rfl, h1, hc]
        exact List.mem_cons_of_mem _ (List.mem_cons_self _ _)
    · exact List.mem_cons_of_mem _ (List.mem_cons_of_mem _ h1)

theorem le_foldl_max (l : List ℚ) : ∀ a x : ℚ, x ∈ a :: l → x ≤ l.foldl max a := by
  induction l with
  | nil =>
    intro a x hx
    have : x = a := by simpa using hx
    simp [this]
  | cons y l ih =>
    intro a x hx
    show x ≤ l.foldl max (max a y)
    have hhead : max a y ≤ l.foldl max (max a y) :=
      ih (max a y) (max a y) (List.mem_cons_self _ _)
    rcases List.mem_cons.mp hx with rfl | hx'
    · exact le_trans (le_max_left x y) hhead
    · rcases List.mem_cons.mp hx' with rfl | hx''
      · exact le_trans (le_max_right a x) hhead
      · exact ih (max a y) x (List.mem_cons_of_mem _ hx'')

theorem listMax_mem (l : List ℚ) (h : l ≠ []) : listMax l ∈ l := by
  cases l with
  | nil => cases h rfl
  | cons x l => exact foldl_max_mem l x

theorem le_listMax (l : List ℚ) (x : ℚ) (hx : x ∈ l) : x ≤ listMax l := by
  cases l with
  | nil => simp at hx
  | cons y l => exact le_foldl_max l y x hx

/-- C5 (amended): the sketch-size statistic of every aggregated approximate
group is the *maximum* of the group's sketch sizes (pandas `'max'`), i.e. a
value attained by some trial of the group and an upper bound for all of
them — not the arithmetic mean. -/
theorem claim_C5 (us : List UnionTrial) (r : UnionStatsRow) (hr : r ∈ unionStats us) :
    r.total_sketch_bytes ∈
      (unionGroup us (r.precision, r.num_days)).map (·.total_sketch_size_bytes) ∧
    ∀ s ∈ (unionGroup us (r.precision, r.num_days)).map (·.total_sketch_size_bytes),
      s ≤ r.total_sketch_bytes := by
  obtain ⟨hreq, hkey⟩ := unionStats_row us r hr
  have hkmem : (r.precision, r.num_days) ∈ us.map ukey := (mem_unionKeys us _).mp hkey
  rcases List.mem_map.mp hkmem with ⟨t, ht, htk⟩
  have htg : t ∈ unionGroup us (r.precision, r.num_days) := by
    unfold unionGroup
    rw [List.mem_filter]
    exact ⟨ht, by simp [htk]⟩
  have hmapne : (unionGroup us (r.precision, r.num_days)).map (·.total_sketch_size_bytes) ≠ [] := by
    intro hnil
    rw [List.map_eq_nil] at hnil
    rw [hnil] at htg
    simp at htg
  have hval : r.total_sketch_bytes =
      listMax ((unionGroup us (r.precision, r.num_days)).map (·.total_sketch_size_bytes)) := by
    conv_lhs => rw [hreq]
    rfl
  exact ⟨hval ▸ listMax_mem _ hmapne, fun s hs => hval ▸ le_listMax _ s hs⟩

/-- C5 (counterexample): for a group with sketch sizes 100 and 200 bytes the
aggregated statistic is 200 (the maximum), while the arithmetic mean of the
group's sketch sizes is 150 — so the statistic is not the mean. -/
theorem claim_C5_cx :
    (unionStats [uS1, uS2]).map (·.total_sketch_bytes) = [200] ∧
    qMean ([uS1, uS2].map (·.total_sketch_size_bytes)) = 150 ∧
    (200 : ℚ) ≠ 150 := by
  with_unfolding_all decide

/-- C5 (witness): the amended claim applied to the concrete two-trial
group. -/
theorem claim_C5_witness :
    mkUnionRow [uS1, uS2] (10, 7) ∈ unionStats [uS1, uS2] ∧
    ((mkUnionRow [uS1, uS2] (10, 7)).total_sketch_bytes ∈
      (unionGroup [uS1, uS2]
        ((mkUnionRow [uS1, uS2] (10, 7)).precision,
         (mkUnionRow [uS1, uS2] (10, 7)).num_days)).map (·.total_sketch_size_bytes) ∧
     ∀ s ∈ (unionGroup [uS1, uS2]
        ((mkUnionRow [uS1, uS2] (10, 7)).precision,
         (mkUnionRow [uS1, uS2] (10, 7)).num_days)).map (·.total_sketch_size_bytes),
       s ≤ (mkUnionRow [uS1, uS2] (10, 7)).total_sketch_bytes) :=
  ⟨by with_unfolding_all decide,
   claim_C5 [uS1, uS2] (mkUnionRow [uS1, uS2] (10, 7)) (by with_unfolding_all decide)⟩

theorem pdiv_zero_pos (a : ℚ) (ha : 0 < a) : pdiv a 0 = PFloat.inf := by
  unfold pdiv
  rw [if_pos rfl, if_neg (ne_of_gt ha), if_pos ha]

theorem pdiv_zero_zero : pdiv 0 0 = PFloat.nan := by
  unfold pdiv
  rw [if_pos rfl, if_pos rfl]

theorem pdiv_zero_neg (a : ℚ) (ha : a < 0) : pdiv a 0 = PFloat.ninf := by
  unfold pdiv
  rw [if_pos rfl, if_neg (ne_of_lt ha), if_neg (not_lt.mpr (le_of_lt ha))]

theorem pfMulQ_inf_pos (c : ℚ) (hc : 0 < c) : pfMulQ PFloat.inf c = PFloat.inf := by
  simp only [pfMulQ]
  rw [if_pos hc]

/-- C1 (amended): when a derived metric's denominator is zero, the metric
follows IEEE float semantics instead of carrying any tagged marker:
`error_pct` is `+inf` (or NaN when the estimate also matches exactly) when
`exact_count = 0`; `speedup_factor` is `±inf` or NaN when
`union_time_ms = 0`; `efficiency_score` is `±inf` or NaN when
`error_pct = 0`.  No `DegenerateMetric` value exists in the pipeline. -/
theorem claim_C1 (us : List UnionTrial) (es : List ExactTrial) (r : CompRow)
    (hr : r ∈ comparisonDf us es) :
    (r.exact_count = 0 → r.error_pct = PFloat.inf ∨ r.error_pct = PFloat.nan) ∧
    (r.union_time_ms = 0 →
      r.speedup_factor = PFloat.inf ∨ r.speedup_factor = PFloat.ninf ∨
        r.speedup_factor = PFloat.nan) ∧
    (r.error_pct = PFloat.fin 0 →
      r.efficiency_score = PFloat.inf ∨ r.efficiency_score = PFloat.ninf ∨
        r.efficiency_score = PFloat.nan) := by
  rcases (mem_comparisonDf us es r).mp hr with ⟨u, hu, e, hfind, rfl⟩
  refine ⟨?_, ?_, ?_⟩
  · intro hc
    have hc' : e.exact_count = 0 := hc
    show pfMulQ (pdiv (|u.avg_estimate - e.exact_count|) e.exact_count) 100 = PFloat.inf ∨
      pfMulQ (pdiv (|u.avg_estimate - e.exact_count|) e.exact_count) 100 = PFloat.nan
    rw [hc']
    rcases eq_or_lt_of_le (abs_nonneg (u.avg_estimate - 0)) with ha | ha
    · right
      rw [← ha, pdiv_zero_zero]
      rfl
    · left
      rw [pdiv_zero_pos _ ha]
      exact pfMulQ_inf_pos 100 (by norm_num)
  · intro hu0
    have hu0' : u.union_time_ms = 0 := hu0
    show pdiv e.exact_time_ms u.union_time_ms = PFloat.inf ∨
      pdiv e.exact_time_ms u.union_time_ms = PFloat.ninf ∨
      pdiv e.exact_time_ms u.union_time_ms = PFloat.nan
    rw [hu0']
    rcases lt_trichotomy e.exact_time_ms 0 with h | h | h
    · right; left
      exact pdiv_zero_neg _ h
    · right; right
      rw [h]
      exact pdiv_zero_zero
    · left
      exact pdiv_zero_pos _ h
  · intro hep
    have heq : (mkCompRow u e).efficiency_score =
        pfDiv ((mkCompRow u e).speedup_factor) ((mkCompRow u e).error_pct) := rfl
    rw [heq, hep]
    rcases hs : (mkCompRow u e).speedup_factor with _ | _ | _ | q
    · right; right
      rfl
    · left
      show pfDiv PFloat.inf (PFloat.fin 0) = PFloat.inf
      simp only [pfDiv]
      rw [if_neg (lt_irrefl 0)]
    · right; left
      show pfDiv PFloat.ninf (PFloat.fin 0) = PFloat.ninf
      simp only [pfDiv]
      rw [if_neg (lt_irrefl 0)]
    · show pdiv q 0 = PFloat.inf ∨ pdiv q 0 = PFloat.ninf ∨ pdiv q 0 = PFloat.nan
      rcases lt_trichotomy q 0 with h | h | h
      · right; left
        exact pdiv_zero_neg _ h
      · right; right
        rw [h]
        exact pdiv_zero_zero
      · left
        exact pdiv_zero_pos _ h

/-- C1 (counterexample): for a matched row with `exact_count = 0` and a
non-zero estimate, `error_pct` is silently the IEEE infinity — it is not a
tagged `DegenerateMetric` value, which contradicts the claim that the
metric is never implicitly coerced to infinity. -/
theorem claim_C1_cx :
    (comparisonDf [uA] [eZero]).map (·.error_pct) = [PFloat.inf] := by
  with_unfolding_all decide

/-- The single comparison row of the `uA`/`eZero` pipeline. -/
def rC1 : CompRow := mkCompRow (mkUnionRow [uA] (10, 7)) (mkExactRow [eZero] 7)

/-- C1 (witness): the amended claim applied to the concrete degenerate
input. -/
theorem claim_C1_witness :
    rC1 ∈ comparisonDf [uA] [eZero] ∧ rC1.exact_count = 0 ∧
    (rC1.error_pct = PFloat.inf ∨ rC1.error_pct = PFloat.nan) :=
  ⟨by with_unfolding_all decide, by with_unfolding_all decide,
    (claim_C1 [uA] [eZero] rC1 (by with_unfolding_all decide)).1
      (by with_unfolding_all decide)⟩

/-- C4 (confirmed): every joined row's `speedup_factor` is the quotient of
the two per-group mean query times, and on the spec's worked example
(approximate times 0.5/0.6 ms, exact times 50/52 ms) it equals
51 / 0.55 = 1020/11 ≈ 92.73. -/
theorem claim_C4 :
    (∀ (us : List UnionTrial) (es : List ExactTrial) (r : CompRow), r ∈ comparisonDf us es →
      r.speedup_factor = pdiv r.exact_time_ms r.union_time_ms ∧
      r.union_time_ms =
        qMean ((unionGroup us (r.precision, r.num_days)).map (·.query_time_ms)) ∧
      r.exact_time_ms = qMean ((exactGroup es r.num_days).map (·.query_time_ms))) ∧
    (comparisonDf [uA, uB] [eA, eB]).map (·.speedup_factor) = [PFloat.fin (1020 / 11)] := by
  constructor
  · intro us es r hr
    rcases (mem_comparisonDf us es r).mp hr with ⟨u, hu, e, hfind, rfl⟩
    obtain ⟨hueq, -⟩ := unionStats_row us u hu
    have hemem : e ∈ exactStats es := List.mem_of_find?_eq_some hfind
    obtain ⟨heeq, -⟩ := exactStats_row es e hemem
    refine ⟨rfl, ?_, ?_⟩
    · exact congrArg UnionStatsRow.union_time_ms hueq
    · have hed : e.num_days = u.num_days := by
        have := List.find?_some hfind
        simpa using this
      show e.exact_time_ms = qMean ((exactGroup es u.num_days).map (·.query_time_ms))
      rw [← hed]
      exact congrArg ExactStatsRow.exact_time_ms heeq
  · with_unfolding_all decide

/-- The single comparison row of the worked example's pipeline. -/
def rC4 : CompRow := mkCompRow (mkUnionRow [uA, uB] (10, 7)) (mkExactRow [eA, eB] 7)

/-- C4 (witness): the general statement applied to the worked example's
row. -/
theorem claim_C4_witness :
    rC4 ∈ comparisonDf [uA, uB] [eA, eB] ∧
    (rC4.speedup_factor = pdiv rC4.exact_time_ms rC4.union_time_ms ∧
     rC4.union_time_ms =
       qMean ((unionGroup [uA, uB] (rC4.precision, rC4.num_days)).map (·.query_time_ms)) ∧
     rC4.exact_time_ms = qMean ((exactGroup [eA, eB] rC4.num_days).map (·.query_time_ms))) :=
  have hmem : rC4 ∈ comparisonDf [uA, uB] [eA, eB] := List.mem_singleton_self rC4
  ⟨hmem, claim_C4.1 [uA, uB] [eA, eB] rC4 hmem⟩

/-- C3 (amended): the merge is an inner join on `num_days` alone, with
precision carried through from the approximate side: the output has exactly
one row per `(precision, num_days)` pair whose window occurs in both
aggregated tables (its keys are strictly ascending, hence distinct).
Unmatched windows on either side are silently dropped — the pipeline
produces no `SkippedKey` report of any kind. -/
theorem claim_C3 (us : List UnionTrial) (es : List ExactTrial) :
    (∀ p w : ℤ, (∃ r ∈ comparisonDf us es, r.precision = p ∧ r.num_days = w) ↔
      ((p, w) ∈ us.map ukey ∧ w ∈ es.map (·.num_days))) ∧
    List.Pairwise keyLt ((comparisonDf us es).map (fun r => (r.precision, r.num_days))) := by
  refine ⟨?_, comparisonDf_keys_pairwise us es⟩
  intro p w
  constructor
  · rintro ⟨r, hr, rfl, rfl⟩
    rcases (mem_comparisonDf us es r).mp hr with ⟨u, hu, e, hfind, rfl⟩
    obtain ⟨-, hukey⟩ := unionStats_row us u hu
    have hemem : e ∈ exactStats es := List.mem_of_find?_eq_some hfind
    obtain ⟨-, hekey⟩ := exactStats_row es e hemem
    have hed : e.num_days = u.num_days := by
      simpa using List.find?_some hfind
    constructor
    · show ((mkCompRow u e).precision, (mkCompRow u e).num_days) ∈ us.map ukey
      exact (mem_unionKeys us _).mp hukey
    · show (mkCompRow u e).num_days ∈ es.map (·.num_days)
      have hin : e.num_days ∈ es.map (·.num_days) := (mem_exactKeys es _).mp hekey
      rw [show (mkCompRow u e).num_days = u.num_days from rfl, ← hed]
      exact hin
  · rintro ⟨hpu, hwe⟩
    have hk : (p, w) ∈ unionKeys us := (mem_unionKeys us _).mpr hpu
    have hu : mkUnionRow us (p, w) ∈ unionStats us := List.mem_map_of_mem _ hk
    have hwk : w ∈ exactKeys es := (mem_exactKeys es _).mpr hwe
    have hee : mkExactRow es w ∈ exactStats es := List.mem_map_of_mem _ hwk
    have hfs : ((exactStats es).find?
        (fun e' => e'.num_days == (mkUnionRow us (p, w)).num_days)).isSome := by
      apply List.find?_isSome.mpr
      refine ⟨mkExactRow es w, hee, ?_⟩
      show ((mkExactRow es w).num_days == (mkUnionRow us (p, w)).num_days) = true
      simp [mkExactRow, mkUnionRow]
    rcases Option.isSome_iff_exists.mp hfs with ⟨e, hfind⟩
    refine ⟨mkCompRow (mkUnionRow us (p, w)) e, ?_, rfl, rfl⟩
    exact (mem_comparisonDf us es _).mpr ⟨mkUnionRow us (p, w), hu, e, hfind, rfl⟩

/-- C3 (counterexample): with an approximate key `(10, 7)` and an exact key
`14` only, the join output is empty and both unmatched windows simply
vanish — the Comparator returns only the merged table, so neither window is
reported in any `SkippedKey` list. -/
theorem claim_C3_cx :
    comparisonDf [uA] [e14] = [] ∧
    (10, 7) ∈ [uA].map ukey ∧ (14 : ℤ) ∈ [e14].map (·.num_days) := by
  with_unfolding_all decide

/-- C3 (witness): the amended join characterisation applied to a matched
concrete input. -/
theorem claim_C3_witness :
    ∃ r ∈ comparisonDf [uA] [eA], r.precision = 10 ∧ r.num_days = 7 :=
  ((claim_C3 [uA] [eA]).1 10 7).mpr
    ⟨by with_unfolding_all decide, by with_unfolding_all decide⟩

/-- C6 (confirmed): for non-empty trial sets, each aggregated table has
strictly ascending group keys — hence exactly one row per distinct key,
sorted ascending — and its keys are exactly the distinct keys occurring in
the raw trials. -/
theorem claim_C6 (us : List UnionTrial) (es : List ExactTrial)
    (hu : us ≠ []) (he : es ≠ []) :
    List.Pairwise keyLt ((unionStats us).map (fun r => (r.precision, r.num_days))) ∧
    (∀ k, k ∈ (unionStats us).map (fun r => (r.precision, r.num_days)) ↔ k ∈ us.map ukey) ∧
    List.Pairwise (fun a b : ℤ => a < b) ((exactStats es).map (fun r => r.num_days)) ∧
    (∀ d, d ∈ (exactStats es).map (fun r => r.num_days) ↔ d ∈ es.map (·.num_days)) := by
  refine ⟨?_, ?_, ?_, ?_⟩
  · rw [unionStats_map_key]
    exact unionKeys_pairwise_lt us
  · intro k
    rw [unionStats_map_key]
    exact mem_unionKeys us k
  · rw [exactStats_map_key]
    exact exactKeys_pairwise_lt es
  · intro d
    rw [exactStats_map_key]
    exact mem_exactKeys es d

/-- C6 (witness): the aggregation invariants applied to a concrete
non-empty input. -/
theorem claim_C6_witness :
    ([uA] : List UnionTrial) ≠ [] ∧ ([eA] : List ExactTrial) ≠ [] ∧
    (List.Pairwise keyLt ((unionStats [uA]).map (fun r => (r.precision, r.num_days))) ∧
     (∀ k, k ∈ (unionStats [uA]).map (fun r => (r.precision, r.num_days)) ↔
        k ∈ [uA].map ukey) ∧
     List.Pairwise (fun a b : ℤ => a < b) ((exactStats [eA]).map (fun r => r.num_days)) ∧
     (∀ d, d ∈ (exactStats [eA]).map (fun r => r.num_days) ↔ d ∈ [eA].map (·.num_days))) :=
  ⟨by with_unfolding_all decide, by with_unfolding_all decide,
   claim_C6 [uA] [eA] (by with_unfolding_all decide) (by with_unfolding_all decide)⟩

/-- C7 (amended): provided no metric in the table is NaN and the table is
non-empty, each best-configuration lookup (`idxmax` for speedup and
efficiency, `idxmin` for error) returns a row attaining the extreme value of
its metric, and breaks ties towards the *smallest `(precision, num_days)`
key in that order* — precision first, window second — because `idxmax` and
`idxmin` return the first extremal row of a table that is sorted by
`(precision, num_days)`. -/
theorem claim_C7 (us : List UnionTrial) (es : List ExactTrial)
    (hfin : ∀ r ∈ comparisonDf us es,
      (r.speedup_factor).isNan = false ∧ (r.error_pct).isNan = false ∧
        (r.efficiency_score).isNan = false)
    (hne : comparisonDf us es ≠ []) :
    (∃ b, bestSpeedRow (comparisonDf us es) = some b ∧ b ∈ comparisonDf us es ∧
      (∀ r ∈ comparisonDf us es, pfLtB b.speedup_factor r.speedup_factor = false) ∧
      (∀ r ∈ comparisonDf us es, r.speedup_factor = b.speedup_factor →
        keyLe (b.precision, b.num_days) (r.precision, r.num_days))) ∧
    (∃ b, bestAccuracyRow (comparisonDf us es) = some b ∧ b ∈ comparisonDf us es ∧
      (∀ r ∈ comparisonDf us es, pfLtB r.error_pct b.error_pct = false) ∧
      (∀ r ∈ comparisonDf us es, r.error_pct = b.error_pct →
        keyLe (b.precision, b.num_days) (r.precision, r.num_days))) ∧
    (∃ b, bestEfficiencyRow (comparisonDf us es) = some b ∧ b ∈ comparisonDf us es ∧
      (∀ r ∈ comparisonDf us es, pfLtB b.efficiency_score r.efficiency_score = false) ∧
      (∀ r ∈ comparisonDf us es, r.efficiency_score = b.efficiency_score →
        keyLe (b.precision, b.num_days) (r.precision, r.num_days))) := by
  have hsorted := comparisonDf_keys_pairwise us es
  refine ⟨?_, ?_, ?_⟩
  · rcases bestRow_spec pfLtB pfLtB_irrefl pfLtB_asymm pfLtB_negtrans
      (comparisonDf us es) (fun r => r.speedup_factor) hsorted
      (fun r hr => (hfin r hr).1) hne with ⟨b, hb, hbm, hopt, htie⟩
    exact ⟨b, hb, hbm, hopt, htie⟩
  · rcases bestRow_spec (fun x y => pfLtB y x) pfLtB_irrefl
      (fun a b h => pfLtB_asymm b a h)
      (fun a b c ha hb hc hab hbc => pfLtB_negtrans c b a hc hb ha hbc hab)
      (comparisonDf us es) (fun r => r.error_pct) hsorted
      (fun r hr => (hfin r hr).2.1) hne with ⟨b, hb, hbm, hopt, htie⟩
    exact ⟨b, hb, hbm, fun r hr => hopt r hr, htie⟩
  · rcases bestRow_spec pfLtB pfLtB_irrefl pfLtB_asymm pfLtB_negtrans
      (comparisonDf us es) (fun r => r.efficiency_score) hsorted
      (fun r hr => (hfin r hr).2.2) hne with ⟨b, hb, hbm, hopt, htie⟩
    exact ⟨b, hb, hbm, hopt, htie⟩

/-- C7 (counterexample): with two rows of equal speedup at keys
`(precision 10, window 30)` and `(precision 12, window 7)`, the code's
`idxmax` picks the `(10, 30)` row — the tie is broken by smallest precision
first, not by smallest window first as the claim states (that would pick
window 7). -/
theorem claim_C7_cx :
    (comparisonDf [uT1, uT2] [eT1, eT2]).map
        (fun r => (r.precision, r.num_days, r.speedup_factor)) =
      ([(10, 30, PFloat.fin 10), (12, 7, PFloat.fin 10)] : List (ℤ × ℤ × PFloat)) ∧
    (bestSpeedRow (comparisonDf [uT1, uT2] [eT1, eT2])).map
        (fun r => (r.precision, r.num_days)) = (some (10, 30) : Option (ℤ × ℤ)) := by
  constructor
  · with_unfolding_all decide
  · with_unfolding_all decide

/-- C7 (witness): the amended best-configuration property applied to a
concrete one-row table with finite metrics. -/
theorem claim_C7_witness :
    (∀ r ∈ comparisonDf [uA, uB] [eA, eB],
      (r.speedup_factor).isNan = false ∧ (r.error_pct).isNan = false ∧
        (r.efficiency_score).isNan = false) ∧
    comparisonDf [uA, uB] [eA, eB] ≠ [] ∧
    ((∃ b, bestSpeedRow (comparisonDf [uA, uB] [eA, eB]) = some b ∧
        b ∈ comparisonDf [uA, uB] [eA, eB] ∧
        (∀ r ∈ comparisonDf [uA, uB] [eA, eB],
          pfLtB b.speedup_factor r.speedup_factor = false) ∧
        (∀ r ∈ comparisonDf [uA, uB] [eA, eB], r.speedup_factor = b.speedup_factor →
          keyLe (b.precision, b.num_days) (r.precision, r.num_days))) ∧
     (∃ b, bestAccuracyRow (comparisonDf [uA, uB] [eA, eB]) = some b ∧
        b ∈ comparisonDf [uA, uB] [eA, eB] ∧
        (∀ r ∈ comparisonDf [uA, uB] [eA, eB],
          pfLtB r.error_pct b.error_pct = false) ∧
        (∀ r ∈ comparisonDf [uA, uB] [eA, eB], r.error_pct = b.error_pct →
          keyLe (b.precision, b.num_days) (r.precision, r.num_days))) ∧
     (∃ b, bestEfficiencyRow (comparisonDf [uA, uB] [eA, eB]) = some b ∧
        b ∈ comparisonDf [uA, uB] [eA, eB] ∧
        (∀ r ∈ comparisonDf [uA, uB] [eA, eB],
          pfLtB b.efficiency_score r.efficiency_score = false) ∧
        (∀ r ∈ comparisonDf [uA, uB] [eA, eB], r.efficiency_score = b.efficiency_score →
          keyLe (b.precision, b.num_days) (r.precision, r.num_days)))) :=
  ⟨by with_unfolding_all decide, by with_unfolding_all decide,
   claim_C7 [uA, uB] [eA, eB] (by with_unfolding_all decide)
     (by with_unfolding_all decide)⟩

/-- C9 (amended): in `plot_results.py`, a missing source is reported as an
explicit `None` signal per source (an empty file yields `some []`, which is
distinguishable), and each analysis depends only on its own sources, so
siblings proceed when an unrelated source is absent.  In `union_plot.py`,
however, a missing CSV terminates the whole run with exit code 1, so no
sibling computation proceeds there. -/
theorem claim_C9 :
    (∀ fs : BenchFS, (plotResultsRun fs).storage = fs.storage) ∧
    (∀ fs : BenchFS, fs.hashing = none → (plotResultsRun fs).hashing = none) ∧
    (∀ fs fs' : BenchFS, fs.storage = fs'.storage →
      (plotResultsRun fs).storage = (plotResultsRun fs').storage) ∧
    (∀ fs fs' : BenchFS, fs.hashing = fs'.hashing →
      (plotResultsRun fs).hashing = (plotResultsRun fs').hashing) ∧
    (∀ (u : Option (List UnionTrial)) (e : Option (List ExactTrial)),
      (∃ o, unionPlotRun u e = Except.ok o) ↔ u ≠ none ∧ e ≠ none) := by
  refine ⟨fun fs => rfl, ?_, ?_, ?_, ?_⟩
  · intro fs h
    show (plot_hashing fs.hashing) = none
    rw [h]
    rfl
  · intro fs fs' h
    show plot_storage fs.storage = plot_storage fs'.storage
    rw [h]
  · intro fs fs' h
    show plot_hashing fs.hashing = plot_hashing fs'.hashing
    rw [h]
  · intro u e
    constructor
    · rintro ⟨o, ho⟩
      cases u with
      | none => cases ho
      | some us =>
        cases e with
        | none => cases ho
        | some es => exact ⟨fun h => Option.noConfusion h, fun h => Option.noConfusion h⟩
    · rintro ⟨hu, he⟩
      cases u with
      | none => exact absurd rfl hu
      | some us =>
        cases e with
        | none => exact absurd rfl he
        | some es => exact ⟨_, rfl⟩

/-- C9 (counterexample): when `union_detailed.csv` is absent but
`exact_detailed.csv` is present, `union_plot.py` exits with code 1 and
produces nothing — in particular the exact-side time-distribution plot,
which does not depend on the missing source, does not proceed, and no
per-source missing signal is returned. -/
theorem claim_C9_cx : unionPlotRun none (some [eA]) = Except.error 1 := rfl

/-- A directory with the storage CSV present and everything else absent. -/
def fsW : BenchFS :=
  { bulk_exact := none, bulk_hll := none, storage := some [], hashing := none,
    low_card_insert := none, high_card_insert := none, read_cardinality := none,
    read_union := none }

/-- C9 (witness): the `plot_results` part of the amended claim applied to a
concrete directory with the hashing source absent: the hashing plot is
skipped with the explicit missing signal while the storage plot still
proceeds. -/
theorem claim_C9_witness :
    fsW.hashing = none ∧ (plotResultsRun fsW).hashing = none ∧
    (plotResultsRun fsW).storage = fsW.storage ∧ (plotResultsRun fsW).storage = some [] :=
  ⟨rfl, claim_C9.2.1 fsW rfl, claim_C9.1 fsW, rfl⟩

theorem matchNumAt_nonneg (s : List Char) (q : ℚ) (rest : List Char)
    (h : matchNumAt s = some (q, rest)) : 0 ≤ q := by
  simp only [matchNumAt] at h
  split at h
  · cases h
  · split at h
    · split at h
      · cases h
      · injection h with h'
        injection h' with h1 h2
        rw [← h1]
        exact add_nonneg (Nat.cast_nonneg _) (div_nonneg (Nat.cast_nonneg _) (by positivity))
    · cases h

theorem matchNumLit_nonneg (lit2 s : List Char) (q : ℚ)
    (h : matchNumLit lit2 s = some q) : 0 ≤ q := by
  unfold matchNumLit at h
  rcases hm : matchNumAt s with _ | ⟨v, rest⟩
  · rw [hm] at h
    cases h
  · rw [hm] at h
    rw [Option.some_bind] at h
    rcases Option.map_eq_some'.mp h with ⟨r, _, hq⟩
    rw [← hq]
    exact matchNumAt_nonneg s v rest hm

theorem searchNum_nonneg (lit1 lit2 : List Char) :
    ∀ (s : List Char) (q : ℚ), searchNum lit1 lit2 s = some q → 0 ≤ q := by
  intro s
  induction s with
  | nil =>
    intro q h
    unfold searchNum at h
    rcases hd : dropLit lit1 [] with _ | r
    · rw [hd, Option.none_bind] at h
      cases h
    · rw [hd, Option.some_bind] at h
      exact matchNumLit_nonneg lit2 r q h
  | cons c cs ih =>
    intro q h
    unfold searchNum at h
    rcases hm : (dropLit lit1 (c :: cs)).bind (matchNumLit lit2) with _ | v
    · simp only [hm] at h
      exact ih q h
    · simp only [hm] at h
      injection h with h'
      rcases hd : dropLit lit1 (c :: cs) with _ | r
      · rw [hd, Option.none_bind] at hm
        cases hm
      · rw [hd, Option.some_bind] at hm
        rw [← h']
        exact matchNumLit_nonneg lit2 r v hm

/-- A pgbench summary whose tps figure has no decimal point: numeric, but
not of the `\d+\.\d+` form the extraction pattern requires. -/
def pgNoDecimal : String := "tps = 5000 (excluding x; latency average = 1.2 ms"

/-- A pgbench summary in the exact format the patterns expect. -/
def pgWellFormed : String := "tps = 9.5 (excluding x; latency average = 1.2 ms"

/-- C10 (confirmed): for every file content, the parser either fails with
`None` or returns exactly the two entries `tps` and `latency`, both
non-negative (it is a total function, so it never raises); a tps figure
written without the digits-dot-digits decimal form yields `None` even
though the value is numeric, while a well-formed summary parses. -/
theorem claim_C10 :
    (∀ content : String,
      parsePgbenchContent content = none ∨
        ∃ d, parsePgbenchContent content = some d ∧ 0 ≤ d.tps ∧ 0 ≤ d.latency) ∧
    parsePgbenchContent pgNoDecimal = none ∧
    parsePgbenchContent pgWellFormed = some ⟨19 / 2, 6 / 5⟩ := by
  refine ⟨?_, by with_unfolding_all decide, by with_unfolding_all decide⟩
  intro content
  rcases ht : searchNum "tps = ".toList " (excluding".toList content.toList with _ | tv
  · left
    unfold parsePgbenchContent
    rw [ht]
  · rcases hl : searchNum "latency average = ".toList " ms".toList content.toList with _ | lv
    · left
      unfold parsePgbenchContent
      rw [ht, hl]
    · right
      refine ⟨⟨tv, lv⟩, ?_, searchNum_nonneg _ _ _ tv ht, searchNum_nonneg _ _ _ lv hl⟩
      unfold parsePgbenchContent
      rw [ht, hl]
